import Mathlib

/-!
Shallow embedding of the raint pixel editor core (src/main.rs): the Canvas
pixel grid, the rasterizer primitives (line, circle, rectangle, brush stamp),
the snapshot-based undo/redo history, the binary codec, and the shape tool
session state machine, together with theorems settling the specification
claims about them.

Machine integers are modelled as Nat (usize, u8, u32) and Int (i32), with the
Rust casts made explicit where their wrapping behaviour matters:
`i32cast` is `usize as i32` / `u32 as i32` style truncation and `usizeCast`
is `i32 as usize` (two's-complement reinterpretation, i.e. reduction mod
2^64). Rust's i32 division (truncation toward zero) is `Int.tdiv`.
-/

namespace Raint

/-- Color is the `[u8; 3]` RGB triple of src/main.rs, with each byte a Nat. -/
abbrev Color := Nat × Nat × Nat

/-- Default white pixel `[255, 255, 255]`. -/
def white : Color := (255, 255, 255)

/-- The Canvas struct of src/main.rs: width, height and a row-major pixel
buffer (pixel (x, y) lives at index `y * width + x`). -/
structure Canvas where
  width : Nat
  height : Nat
  pixels : List Color
deriving DecidableEq

/-- Well-formedness invariant of a canvas: the buffer length matches the
declared dimensions. Every canvas the program constructs satisfies it. -/
def Canvas.wf (c : Canvas) : Prop := c.pixels.length = c.width * c.height

instance (c : Canvas) : Decidable c.wf := by unfold Canvas.wf; infer_instance

/-- Canvas::new: allocates `width * height` white pixels. -/
def Canvas.new (width height : Nat) : Canvas :=
  ⟨width, height, List.replicate (width * height) white⟩

/-- Canvas::set_pixel: overwrite the pixel at (x, y) when in bounds,
otherwise a silent no-op. -/
def Canvas.set_pixel (c : Canvas) (x y : Nat) (color : Color) : Canvas :=
  if x < c.width ∧ y < c.height then
    { c with pixels := c.pixels.set (y * c.width + x) color }
  else c

/-- Canvas::get_pixel: the stored color when (x, y) is in bounds, else white.
The in-bounds list access is total via a default, which agrees with the Rust
indexing whenever the canvas is well-formed (the index is then in range). -/
def Canvas.get_pixel (c : Canvas) (x y : Nat) : Color :=
  if x < c.width ∧ y < c.height then c.pixels.getD (y * c.width + x) white
  else white

/-- Canvas::clone_for_preview: a deep copy, which in the pure model is the
canvas itself. -/
def Canvas.clone_for_preview (c : Canvas) : Canvas := c

theorem Canvas.new_wf (w h : Nat) : (Canvas.new w h).wf := by
  unfold Canvas.wf Canvas.new
  simp

theorem set_pixel_width (c : Canvas) (x y : Nat) (col : Color) :
    (c.set_pixel x y col).width = c.width := by
  unfold Canvas.set_pixel; split <;> rfl

theorem set_pixel_height (c : Canvas) (x y : Nat) (col : Color) :
    (c.set_pixel x y col).height = c.height := by
  unfold Canvas.set_pixel; split <;> rfl

theorem set_pixel_pixels_length (c : Canvas) (x y : Nat) (col : Color) :
    (c.set_pixel x y col).pixels.length = c.pixels.length := by
  unfold Canvas.set_pixel; split <;> simp

theorem set_pixel_wf (c : Canvas) (x y : Nat) (col : Color) (h : c.wf) :
    (c.set_pixel x y col).wf := by
  unfold Canvas.wf at h ⊢
  rw [set_pixel_pixels_length, set_pixel_width, set_pixel_height]; exact h

/-- Row-major index injectivity: two in-row coordinates map to the same
buffer index only if they are the same coordinates. -/
theorem rowmajor_inj {w u x v y : Nat} (hu : u < w) (hx : x < w) :
    v * w + u = y * w + x ↔ u = x ∧ v = y := by
  constructor
  · intro h
    rcases Nat.lt_trichotomy v y with hvy | hvy | hvy
    · exfalso
      have h1 : v * w + u < y * w + x := by
        calc v * w + u < v * w + w := by omega
        _ = (v + 1) * w := by ring
        _ ≤ y * w := Nat.mul_le_mul_right w hvy
        _ ≤ y * w + x := by omega
      omega
    · subst hvy; omega
    · exfalso
      have h1 : y * w + x < v * w + u := by
        calc y * w + x < y * w + w := by omega
        _ = (y + 1) * w := by ring
        _ ≤ v * w := Nat.mul_le_mul_right w hvy
        _ ≤ v * w + u := by omega
      omega
  · rintro ⟨rfl, rfl⟩; rfl

/-- Reading after writing: the written pixel holds the new color, every
other position is unchanged, and out-of-bounds writes change nothing. -/
theorem get_pixel_set_pixel (c : Canvas) (hwf : c.wf) (x y u v : Nat)
    (col : Color) :
    (c.set_pixel x y col).get_pixel u v =
      if u = x ∧ v = y ∧ x < c.width ∧ y < c.height then col
      else c.get_pixel u v := by
  unfold Canvas.set_pixel Canvas.get_pixel
  by_cases hxy : x < c.width ∧ y < c.height
  · simp only [if_pos hxy]
    by_cases huv : u < c.width ∧ v < c.height
    · simp only [huv, if_pos huv, and_true, hxy]
      have hidx : y * c.width + x < c.pixels.length := by
        unfold Canvas.wf at hwf
        rw [hwf]
        calc y * c.width + x < y * c.width + c.width := by omega
        _ = (y + 1) * c.width := by ring
        _ ≤ c.height * c.width := Nat.mul_le_mul_right c.width hxy.2
        _ = c.width * c.height := Nat.mul_comm _ _
      by_cases heq : u = x ∧ v = y
      · rcases heq with ⟨rfl, rfl⟩
        simp only [and_self, if_pos trivial]
        rw [List.getD_eq_getElem?_getD, List.getElem?_set_self hidx]
        rfl
      · simp only [if_neg heq]
        have hne : y * c.width + x ≠ v * c.width + u := by
          intro hcontra
          exact heq ((rowmajor_inj huv.1 hxy.1).mp hcontra.symm)
        rw [List.getD_eq_getElem?_getD, List.getElem?_set_ne hne,
          ← List.getD_eq_getElem?_getD]
    · simp only [if_neg huv]
      have : ¬(u = x ∧ v = y ∧ x < c.width ∧ y < c.height) := by
        rintro ⟨rfl, rfl, h1, h2⟩; exact huv ⟨h1, h2⟩
      simp only [if_neg this]
  · simp only [if_neg hxy]
    have : ¬(u = x ∧ v = y ∧ x < c.width ∧ y < c.height) := by
      rintro ⟨_, _, h1, h2⟩; exact hxy ⟨h1, h2⟩
    simp only [if_neg this]

/-- Rust `usize as i32` (also `u32 as i32`): two's-complement truncation to
32 bits. It is the identity on values below 2^31. -/
def i32cast (n : Nat) : Int := ((n : Int) + 2 ^ 31) % (2 ^ 32) - 2 ^ 31

/-- Rust `i32 as usize`: two's-complement reinterpretation, i.e. reduction
modulo 2^64 (negative values wrap to huge values). -/
def usizeCast (v : Int) : Nat := (v % (2 ^ 64)).toNat

theorem i32cast_eq_of_lt {n : Nat} (h : n < 2 ^ 31) : i32cast n = n := by
  unfold i32cast
  rw [Int.emod_eq_of_lt (by omega) (by omega)]
  omega

theorem usizeCast_eq_of_nonneg {v : Int} (h0 : 0 ≤ v) (h1 : v < 2 ^ 64) :
    usizeCast v = v.toNat := by
  unfold usizeCast
  rw [Int.emod_eq_of_lt h0 h1]

/-- Rust half-open integer range `a..b` as a list (empty when `b <= a`). -/
def irange (a b : Int) : List Int :=
  (List.range (b - a).toNat).map (fun i : Nat => a + (i : Int))

theorem mem_irange {a b x : Int} : x ∈ irange a b ↔ a ≤ x ∧ x < b := by
  unfold irange
  constructor
  · intro h
    rcases List.mem_map.mp h with ⟨i, hi, rfl⟩
    rw [List.mem_range] at hi
    omega
  · intro h
    refine List.mem_map.mpr ⟨(x - a).toNat, ?_, ?_⟩
    · rw [List.mem_range]; omega
    · omega

/-- Loop body of draw_circle in src/main.rs: for offsets (x, y) inside the
disk, plot the translated point when in bounds (the bounds test reads the
width/height of the canvas being mutated, as the Rust loop does). -/
def circleStep (cx cy r2 y : Int) (color : Color) (acc : Canvas) (x : Int) :
    Canvas :=
  if x * x + y * y ≤ r2 then
    let px := cx + x
    let py := cy + y
    if 0 ≤ px ∧ px < i32cast acc.width ∧ 0 ≤ py ∧ py < i32cast acc.height then
      acc.set_pixel px.toNat py.toNat color
    else acc
  else acc

/-- draw_circle from src/main.rs: fills all integer points of the closed
disk of the given radius around (cx, cy), clipped to the canvas. -/
def draw_circle (c : Canvas) (cx cy radius : Int) (color : Color) : Canvas :=
  let r2 := radius * radius
  (irange (-radius) (radius + 1)).foldl (fun accY y =>
    (irange (-radius) (radius + 1)).foldl (circleStep cx cy r2 y color) accY) c

theorem circleStep_dims (cx cy r2 y : Int) (color : Color) (acc : Canvas)
    (x : Int) :
    ((circleStep cx cy r2 y color acc x).width = acc.width ∧
      (circleStep cx cy r2 y color acc x).height = acc.height ∧
      (circleStep cx cy r2 y color acc x).pixels.length =
        acc.pixels.length) := by
  unfold circleStep
  split
  · dsimp only
    split
    · exact ⟨set_pixel_width _ _ _ _, set_pixel_height _ _ _ _,
        set_pixel_pixels_length _ _ _ _⟩
    · exact ⟨rfl, rfl, rfl⟩
  · exact ⟨rfl, rfl, rfl⟩

theorem circle_row_dims (cx cy r2 y : Int) (color : Color) (xs : List Int) :
    ∀ (c : Canvas),
      ((xs.foldl (circleStep cx cy r2 y color) c).width = c.width ∧
        (xs.foldl (circleStep cx cy r2 y color) c).height = c.height ∧
        (xs.foldl (circleStep cx cy r2 y color) c).pixels.length =
          c.pixels.length) := by
  induction xs with
  | nil => intro c; exact ⟨rfl, rfl, rfl⟩
  | cons x xs ih =>
    intro c
    simp only [List.foldl_cons]
    refine ⟨?_, ?_, ?_⟩
    · rw [(ih _).1, (circleStep_dims cx cy r2 y color c x).1]
    · rw [(ih _).2.1, (circleStep_dims cx cy r2 y color c x).2.1]
    · rw [(ih _).2.2, (circleStep_dims cx cy r2 y color c x).2.2]

theorem circle_row_wf (cx cy r2 y : Int) (color : Color) (xs : List Int)
    (c : Canvas) (h : c.wf) : (xs.foldl (circleStep cx cy r2 y color) c).wf := by
  unfold Canvas.wf at h ⊢
  rw [(circle_row_dims cx cy r2 y color xs c).1,
    (circle_row_dims cx cy r2 y color xs c).2.1,
    (circle_row_dims cx cy r2 y color xs c).2.2]
  exact h

/-- One row of the circle loop paints exactly the in-disk offsets that land
on the queried pixel. -/
theorem get_circle_row (cx cy r2 y : Int) (color : Color) (u v : Nat)
    (xs : List Int) :
    ∀ (c : Canvas), c.wf → c.width < 2 ^ 31 → c.height < 2 ^ 31 →
      (xs.foldl (circleStep cx cy r2 y color) c).get_pixel u v =
        if (∃ x ∈ xs, x * x + y * y ≤ r2 ∧ cx + x = (u : Int) ∧
              cy + y = (v : Int)) ∧ u < c.width ∧ v < c.height then color
        else c.get_pixel u v := by
  induction xs with
  | nil => intro c _ _ _; simp
  | cons x xs ih =>
    intro c hwf hw hh
    simp only [List.foldl_cons]
    have hdims := circleStep_dims cx cy r2 y color c x
    have hstep_wf : (circleStep cx cy r2 y color c x).wf := by
      unfold Canvas.wf
      rw [hdims.1, hdims.2.1, hdims.2.2]; exact hwf
    rw [ih _ hstep_wf (by rw [hdims.1]; exact hw) (by rw [hdims.2.1]; exact hh),
      hdims.1, hdims.2.1]
    have hgetstep : (circleStep cx cy r2 y color c x).get_pixel u v =
        if x * x + y * y ≤ r2 ∧ cx + x = (u : Int) ∧ cy + y = (v : Int) ∧
            u < c.width ∧ v < c.height then color
        else c.get_pixel u v := by
      unfold circleStep
      by_cases hg : x * x + y * y ≤ r2
      · rw [if_pos hg]
        simp only
        rw [i32cast_eq_of_lt hw, i32cast_eq_of_lt hh]
        by_cases hb : 0 ≤ cx + x ∧ cx + x < (c.width : Int) ∧ 0 ≤ cy + y ∧
            cy + y < (c.height : Int)
        · rw [if_pos hb, get_pixel_set_pixel c hwf _ _ u v color]
          by_cases heq : cx + x = (u : Int) ∧ cy + y = (v : Int)
          · rw [if_pos, if_pos]
            · exact ⟨hg, heq.1, heq.2, by omega, by omega⟩
            · refine ⟨by omega, by omega, by omega, by omega⟩
          · rw [if_neg, if_neg]
            · rintro ⟨_, h1, h2, _, _⟩; exact heq ⟨h1, h2⟩
            · rintro ⟨h1, h2, _, _⟩
              exact heq ⟨by omega, by omega⟩
        · rw [if_neg hb, if_neg]
          rintro ⟨_, h1, h2, h3, h4⟩
          exact hb ⟨by omega, by omega, by omega, by omega⟩
      · rw [if_neg hg, if_neg]
        rintro ⟨h1, _⟩; exact hg h1
    rw [hgetstep]
    by_cases htail : (∃ x' ∈ xs, x' * x' + y * y ≤ r2 ∧ cx + x' = (u : Int) ∧
        cy + y = (v : Int)) ∧ u < c.width ∧ v < c.height
    · rw [if_pos htail, if_pos]
      rcases htail with ⟨⟨x', hx', hcond⟩, hb⟩
      exact ⟨⟨x', List.mem_cons_of_mem x hx', hcond⟩, hb⟩
    · rw [if_neg htail]
      by_cases hhead : x * x + y * y ≤ r2 ∧ cx + x = (u : Int) ∧
          cy + y = (v : Int) ∧ u < c.width ∧ v < c.height
      · rw [if_pos hhead, if_pos]
        exact ⟨⟨x, List.mem_cons_self x xs, hhead.1, hhead.2.1, hhead.2.2.1⟩,
          hhead.2.2.2⟩
      · rw [if_neg hhead, if_neg]
        rintro ⟨⟨x', hx', hc1, hc2, hc3⟩, hb1, hb2⟩
        rcases List.mem_cons.mp hx' with rfl | hx'
        · exact hhead ⟨hc1, hc2, hc3, hb1, hb2⟩
        · exact htail ⟨⟨x', hx', hc1, hc2, hc3⟩, hb1, hb2⟩

/-- Nested circle loops paint exactly the in-disk offsets hitting the
queried pixel. -/
theorem get_circle_fold (cx cy r2 : Int) (color : Color) (u v : Nat)
    (xs : List Int) (ys : List Int) :
    ∀ (c : Canvas), c.wf → c.width < 2 ^ 31 → c.height < 2 ^ 31 →
      (ys.foldl (fun accY y =>
          xs.foldl (circleStep cx cy r2 y color) accY) c).get_pixel u v =
        if (∃ y ∈ ys, ∃ x ∈ xs, x * x + y * y ≤ r2 ∧ cx + x = (u : Int) ∧
              cy + y = (v : Int)) ∧ u < c.width ∧ v < c.height then color
        else c.get_pixel u v := by
  induction ys with
  | nil => intro c _ _ _; simp
  | cons y ys ih =>
    intro c hwf hw hh
    simp only [List.foldl_cons]
    have hdims := circle_row_dims cx cy r2 y color xs c
    rw [ih _ (circle_row_wf cx cy r2 y color xs c hwf)
        (by rw [hdims.1]; exact hw) (by rw [hdims.2.1]; exact hh),
      hdims.1, hdims.2.1, get_circle_row cx cy r2 y color u v xs c hwf hw hh]
    by_cases htail : (∃ y' ∈ ys, ∃ x ∈ xs, x * x + y' * y' ≤ r2 ∧
        cx + x = (u : Int) ∧ cy + y' = (v : Int)) ∧ u < c.width ∧ v < c.height
    · rw [if_pos htail, if_pos]
      rcases htail with ⟨⟨y', hy', hrest⟩, hb⟩
      exact ⟨⟨y', List.mem_cons_of_mem y hy', hrest⟩, hb⟩
    · rw [if_neg htail]
      by_cases hhead : (∃ x ∈ xs, x * x + y * y ≤ r2 ∧ cx + x = (u : Int) ∧
          cy + y = (v : Int)) ∧ u < c.width ∧ v < c.height
      · rw [if_pos hhead, if_pos]
        exact ⟨⟨y, List.mem_cons_self y ys, hhead.1⟩, hhead.2⟩
      · rw [if_neg hhead, if_neg]
        rintro ⟨⟨y', hy', hrest⟩, hb⟩
        rcases List.mem_cons.mp hy' with rfl | hy'
        · exact hhead ⟨hrest, hb⟩
        · exact htail ⟨⟨y', hy', hrest⟩, hb⟩

/-- Square comparison on integers: for a nonnegative bound r, the square of
a is at most the square of r exactly when a lies in the band [-r, r]. -/
theorem sq_le_sq_iff_band {a r : Int} (hr : 0 ≤ r) :
    a * a ≤ r * r ↔ -r ≤ a ∧ a ≤ r := by
  constructor
  · intro h
    constructor
    · by_contra hc
      push_neg at hc
      nlinarith
    · by_contra hc
      push_neg at hc
      nlinarith
  · rintro ⟨h1, h2⟩
    nlinarith

/-- Pointwise description of draw_circle: an in-bounds pixel is painted
exactly when its offset from the center lies in the closed disk; every
other pixel keeps its old value. -/
theorem get_draw_circle (c : Canvas) (hwf : c.wf) (cx cy radius : Int)
    (color : Color) (hr : 0 ≤ radius) (hw : c.width < 2 ^ 31)
    (hh : c.height < 2 ^ 31) (u v : Nat) (hu : u < c.width)
    (hv : v < c.height) :
    (draw_circle c cx cy radius color).get_pixel u v =
      if ((u : Int) - cx) * ((u : Int) - cx) +
          ((v : Int) - cy) * ((v : Int) - cy) ≤ radius * radius then color
      else c.get_pixel u v := by
  unfold draw_circle
  rw [get_circle_fold cx cy (radius * radius) color u v _ _ c hwf hw hh]
  congr 1
  simp only [eq_iff_iff]
  constructor
  · rintro ⟨⟨y, _, x, _, hd, hx, hy⟩, _, _⟩
    have hxu : x = (u : Int) - cx := by omega
    have hyv : y = (v : Int) - cy := by omega
    rw [hxu, hyv] at hd
    exact hd
  · intro hd
    refine ⟨⟨(v : Int) - cy, ?_, (u : Int) - cx, ?_, ?_, by omega, by omega⟩,
      hu, hv⟩
    · rw [mem_irange]
      have h1 : ((v : Int) - cy) * ((v : Int) - cy) ≤ radius * radius := by
        nlinarith [mul_self_nonneg ((u : Int) - cx)]
      have := (sq_le_sq_iff_band hr).mp h1
      omega
    · rw [mem_irange]
      have h1 : ((u : Int) - cx) * ((u : Int) - cx) ≤ radius * radius := by
        nlinarith [mul_self_nonneg ((v : Int) - cy)]
      have := (sq_le_sq_iff_band hr).mp h1
      omega
    · exact hd

/-- Loop body of draw_brush_stroke in src/main.rs: plot the offset point of
the stamp square when in bounds. Rust's i32 division `t / 2` truncates
toward zero, which is Int.tdiv. -/
def brushStep (xi yi t dy : Int) (color : Color) (acc : Canvas) (dx : Int) :
    Canvas :=
  let px := xi + dx - Int.tdiv t 2
  let py := yi + dy - Int.tdiv t 2
  if 0 ≤ px ∧ px < i32cast acc.width ∧ 0 ≤ py ∧ py < i32cast acc.height then
    acc.set_pixel px.toNat py.toNat color
  else acc

/-- draw_brush_stroke from src/main.rs: stamps a thickness-by-thickness
square whose top-left corner is offset from (x, y) by minus half the
thickness (floor division) on each axis, clipped per pixel. -/
def draw_brush_stroke (c : Canvas) (x y thickness : Nat) (color : Color) :
    Canvas :=
  let t := i32cast thickness
  let xi := i32cast x
  let yi := i32cast y
  (irange 0 t).foldl (fun accY dy =>
    (irange 0 t).foldl (brushStep xi yi t dy color) accY) c

theorem brushStep_dims (xi yi t dy : Int) (color : Color) (acc : Canvas)
    (dx : Int) :
    ((brushStep xi yi t dy color acc dx).width = acc.width ∧
      (brushStep xi yi t dy color acc dx).height = acc.height ∧
      (brushStep xi yi t dy color acc dx).pixels.length =
        acc.pixels.length) := by
  unfold brushStep
  dsimp only
  split
  · exact ⟨set_pixel_width _ _ _ _, set_pixel_height _ _ _ _,
      set_pixel_pixels_length _ _ _ _⟩
  · exact ⟨rfl, rfl, rfl⟩

theorem brush_row_dims (xi yi t dy : Int) (color : Color) (xs : List Int) :
    ∀ (c : Canvas),
      ((xs.foldl (brushStep xi yi t dy color) c).width = c.width ∧
        (xs.foldl (brushStep xi yi t dy color) c).height = c.height ∧
        (xs.foldl (brushStep xi yi t dy color) c).pixels.length =
          c.pixels.length) := by
  induction xs with
  | nil => intro c; exact ⟨rfl, rfl, rfl⟩
  | cons dx xs ih =>
    intro c
    simp only [List.foldl_cons]
    refine ⟨?_, ?_, ?_⟩
    · rw [(ih _).1, (brushStep_dims xi yi t dy color c dx).1]
    · rw [(ih _).2.1, (brushStep_dims xi yi t dy color c dx).2.1]
    · rw [(ih _).2.2, (brushStep_dims xi yi t dy color c dx).2.2]

theorem brush_row_wf (xi yi t dy : Int) (color : Color) (xs : List Int)
    (c : Canvas) (h : c.wf) :
    (xs.foldl (brushStep xi yi t dy color) c).wf := by
  unfold Canvas.wf at h ⊢
  rw [(brush_row_dims xi yi t dy color xs c).1,
    (brush_row_dims xi yi t dy color xs c).2.1,
    (brush_row_dims xi yi t dy color xs c).2.2]
  exact h

/-- One row of the brush stamp loop paints exactly the offsets landing on
the queried pixel. -/
theorem get_brush_row (xi yi t dy : Int) (color : Color) (u v : Nat)
    (xs : List Int) :
    ∀ (c : Canvas), c.wf → c.width < 2 ^ 31 → c.height < 2 ^ 31 →
      (xs.foldl (brushStep xi yi t dy color) c).get_pixel u v =
        if (∃ dx ∈ xs, xi + dx - Int.tdiv t 2 = (u : Int) ∧
              yi + dy - Int.tdiv t 2 = (v : Int)) ∧
            u < c.width ∧ v < c.height then color
        else c.get_pixel u v := by
  induction xs with
  | nil => intro c _ _ _; simp
  | cons dx xs ih =>
    intro c hwf hw hh
    simp only [List.foldl_cons]
    have hdims := brushStep_dims xi yi t dy color c dx
    have hstep_wf : (brushStep xi yi t dy color c dx).wf := by
      unfold Canvas.wf
      rw [hdims.1, hdims.2.1, hdims.2.2]; exact hwf
    rw [ih _ hstep_wf (by rw [hdims.1]; exact hw) (by rw [hdims.2.1]; exact hh),
      hdims.1, hdims.2.1]
    have hgetstep : (brushStep xi yi t dy color c dx).get_pixel u v =
        if xi + dx - Int.tdiv t 2 = (u : Int) ∧
            yi + dy - Int.tdiv t 2 = (v : Int) ∧
            u < c.width ∧ v < c.height then color
        else c.get_pixel u v := by
      unfold brushStep
      dsimp only
      rw [i32cast_eq_of_lt hw, i32cast_eq_of_lt hh]
      by_cases hb : 0 ≤ xi + dx - Int.tdiv t 2 ∧
          xi + dx - Int.tdiv t 2 < (c.width : Int) ∧
          0 ≤ yi + dy - Int.tdiv t 2 ∧
          yi + dy - Int.tdiv t 2 < (c.height : Int)
      · rw [if_pos hb, get_pixel_set_pixel c hwf _ _ u v color]
        by_cases heq : xi + dx - Int.tdiv t 2 = (u : Int) ∧
            yi + dy - Int.tdiv t 2 = (v : Int)
        · rw [if_pos, if_pos]
          · exact ⟨heq.1, heq.2, by omega, by omega⟩
          · refine ⟨by omega, by omega, by omega, by omega⟩
        · rw [if_neg, if_neg]
          · rintro ⟨h1, h2, _, _⟩; exact heq ⟨h1, h2⟩
          · rintro ⟨h1, h2, _, _⟩
            exact heq ⟨by omega, by omega⟩
      · rw [if_neg hb, if_neg]
        rintro ⟨h1, h2, h3, h4⟩
        exact hb ⟨by omega, by omega, by omega, by omega⟩
    rw [hgetstep]
    by_cases htail : (∃ dx' ∈ xs, xi + dx' - Int.tdiv t 2 = (u : Int) ∧
        yi + dy - Int.tdiv t 2 = (v : Int)) ∧ u < c.width ∧ v < c.height
    · rw [if_pos htail, if_pos]
      rcases htail with ⟨⟨dx', hdx', hcond⟩, hb⟩
      exact ⟨⟨dx', List.mem_cons_of_mem dx hdx', hcond⟩, hb⟩
    · rw [if_neg htail]
      by_cases hhead : xi + dx - Int.tdiv t 2 = (u : Int) ∧
          yi + dy - Int.tdiv t 2 = (v : Int) ∧ u < c.width ∧ v < c.height
      · rw [if_pos hhead, if_pos]
        exact ⟨⟨dx, List.mem_cons_self dx xs, hhead.1, hhead.2.1⟩, hhead.2.2⟩
      · rw [if_neg hhead, if_neg]
        rintro ⟨⟨dx', hdx', hc1, hc2⟩, hb1, hb2⟩
        rcases List.mem_cons.mp hdx' with rfl | hdx'
        · exact hhead ⟨hc1, hc2, hb1, hb2⟩
        · exact htail ⟨⟨dx', hdx', hc1, hc2⟩, hb1, hb2⟩

/-- Nested brush loops paint exactly the stamp offsets hitting the queried
pixel. -/
theorem get_brush_fold (xi yi t : Int) (color : Color) (u v : Nat)
    (xs : List Int) (ys : List Int) :
    ∀ (c : Canvas), c.wf → c.width < 2 ^ 31 → c.height < 2 ^ 31 →
      (ys.foldl (fun accY dy =>
          xs.foldl (brushStep xi yi t dy color) accY) c).get_pixel u v =
        if (∃ dy ∈ ys, ∃ dx ∈ xs, xi + dx - Int.tdiv t 2 = (u : Int) ∧
              yi + dy - Int.tdiv t 2 = (v : Int)) ∧
            u < c.width ∧ v < c.height then color
        else c.get_pixel u v := by
  induction ys with
  | nil => intro c _ _ _; simp
  | cons dy ys ih =>
    intro c hwf hw hh
    simp only [List.foldl_cons]
    have hdims := brush_row_dims xi yi t dy color xs c
    rw [ih _ (brush_row_wf xi yi t dy color xs c hwf)
        (by rw [hdims.1]; exact hw) (by rw [hdims.2.1]; exact hh),
      hdims.1, hdims.2.1, get_brush_row xi yi t dy color u v xs c hwf hw hh]
    by_cases htail : (∃ dy' ∈ ys, ∃ dx ∈ xs, xi + dx - Int.tdiv t 2 =
        (u : Int) ∧ yi + dy' - Int.tdiv t 2 = (v : Int)) ∧
        u < c.width ∧ v < c.height
    · rw [if_pos htail, if_pos]
      rcases htail with ⟨⟨dy', hdy', hrest⟩, hb⟩
      exact ⟨⟨dy', List.mem_cons_of_mem dy hdy', hrest⟩, hb⟩
    · rw [if_neg htail]
      by_cases hhead : (∃ dx ∈ xs, xi + dx - Int.tdiv t 2 = (u : Int) ∧
          yi + dy - Int.tdiv t 2 = (v : Int)) ∧ u < c.width ∧ v < c.height
      · rw [if_pos hhead, if_pos]
        exact ⟨⟨dy, List.mem_cons_self dy ys, hhead.1⟩, hhead.2⟩
      · rw [if_neg hhead, if_neg]
        rintro ⟨⟨dy', hdy', hrest⟩, hb⟩
        rcases List.mem_cons.mp hdy' with rfl | hdy'
        · exact hhead ⟨hrest, hb⟩
        · exact htail ⟨⟨dy', hdy', hrest⟩, hb⟩

/-- draw_rectangle from src/main.rs: a centered square of half-extent
`half_size`, clamped, then filled by row. The upper loop bounds reproduce
the Rust `as usize` cast of a possibly negative i32 value. -/
def draw_rectangle (c : Canvas) (cx cy half_size : Int) (color : Color) :
    Canvas :=
  let x_min := (max (cx - half_size) 0).toNat
  let x_max := usizeCast (min (cx + half_size) (i32cast c.width - 1) + 1)
  let y_min := (max (cy - half_size) 0).toNat
  let y_max := usizeCast (min (cy + half_size) (i32cast c.height - 1) + 1)
  (List.range' y_min (y_max - y_min)).foldl (fun accY y =>
    (List.range' x_min (x_max - x_min)).foldl
      (fun acc x => acc.set_pixel x y color) accY) c

/-- draw_rect_preview from src/main.rs: as draw_rectangle but with separate
half-extents per axis. -/
def draw_rect_preview (c : Canvas) (cx cy hx hy : Int) (color : Color) :
    Canvas :=
  let x_min := (max (cx - hx) 0).toNat
  let x_max := usizeCast (min (cx + hx) (i32cast c.width - 1) + 1)
  let y_min := (max (cy - hy) 0).toNat
  let y_max := usizeCast (min (cy + hy) (i32cast c.height - 1) + 1)
  (List.range' y_min (y_max - y_min)).foldl (fun accY y =>
    (List.range' x_min (x_max - x_min)).foldl
      (fun acc x => acc.set_pixel x y color) accY) c

theorem row_fold_width (col : Color) (y : Nat) (xs : List Nat) (c : Canvas) :
    ((xs.foldl (fun acc x => acc.set_pixel x y col) c).width = c.width ∧
      (xs.foldl (fun acc x => acc.set_pixel x y col) c).height = c.height ∧
      (xs.foldl (fun acc x => acc.set_pixel x y col) c).pixels.length =
        c.pixels.length) := by
  induction xs generalizing c with
  | nil => exact ⟨rfl, rfl, rfl⟩
  | cons x xs ih =>
    simp only [List.foldl_cons]
    refine ⟨?_, ?_, ?_⟩
    · rw [(ih (c.set_pixel x y col)).1, set_pixel_width]
    · rw [(ih (c.set_pixel x y col)).2.1, set_pixel_height]
    · rw [(ih (c.set_pixel x y col)).2.2, set_pixel_pixels_length]

theorem row_fold_wf (col : Color) (y : Nat) (xs : List Nat) (c : Canvas)
    (h : c.wf) : (xs.foldl (fun acc x => acc.set_pixel x y col) c).wf := by
  unfold Canvas.wf at h ⊢
  rw [(row_fold_width col y xs c).1, (row_fold_width col y xs c).2.1,
    (row_fold_width col y xs c).2.2]
  exact h

/-- Folding set_pixel along one row paints exactly the listed columns of
that row (clipped to bounds) and leaves all other pixels unchanged. -/
theorem get_row_fold (col : Color) (y : Nat) (u v : Nat) (xs : List Nat) :
    ∀ (c : Canvas), c.wf →
      (xs.foldl (fun acc x => acc.set_pixel x y col) c).get_pixel u v =
        if u ∈ xs ∧ v = y ∧ u < c.width ∧ v < c.height then col
        else c.get_pixel u v := by
  induction xs with
  | nil => intro c _; simp
  | cons x xs ih =>
    intro c hwf
    simp only [List.foldl_cons]
    rw [ih (c.set_pixel x y col) (set_pixel_wf c x y col hwf),
      set_pixel_width, set_pixel_height,
      get_pixel_set_pixel c hwf x y u v col]
    by_cases hmem : u ∈ xs ∧ v = y ∧ u < c.width ∧ v < c.height
    · rw [if_pos hmem, if_pos]
      exact ⟨List.mem_cons_of_mem x hmem.1, hmem.2⟩
    · rw [if_neg hmem]
      by_cases hhead : u = x ∧ v = y ∧ x < c.width ∧ y < c.height
      · rw [if_pos hhead, if_pos]
        rcases hhead with ⟨rfl, rfl, h1, h2⟩
        exact ⟨List.mem_cons_self u xs, rfl, h1, h2⟩
      · rw [if_neg hhead, if_neg]
        rintro ⟨hu, rfl, h1, h2⟩
        rcases List.mem_cons.mp hu with rfl | hu
        · exact hhead ⟨rfl, rfl, h1, h2⟩
        · exact hmem ⟨hu, rfl, h1, h2⟩

theorem rect_fold_dims (col : Color) (xs : List Nat) (ys : List Nat)
    (c : Canvas) :
    ((ys.foldl (fun accY y => xs.foldl (fun acc x => acc.set_pixel x y col)
        accY) c).width = c.width ∧
      (ys.foldl (fun accY y => xs.foldl (fun acc x => acc.set_pixel x y col)
        accY) c).height = c.height ∧
      (ys.foldl (fun accY y => xs.foldl (fun acc x => acc.set_pixel x y col)
        accY) c).pixels.length = c.pixels.length) := by
  induction ys generalizing c with
  | nil => exact ⟨rfl, rfl, rfl⟩
  | cons y ys ih =>
    simp only [List.foldl_cons]
    set c1 := xs.foldl (fun acc x => acc.set_pixel x y col) c with hc1
    refine ⟨?_, ?_, ?_⟩
    · rw [(ih c1).1, (row_fold_width col y xs c).1]
    · rw [(ih c1).2.1, (row_fold_width col y xs c).2.1]
    · rw [(ih c1).2.2, (row_fold_width col y xs c).2.2]

/-- Folding set_pixel over a grid of rows and columns paints exactly the
listed coordinate pairs (clipped to bounds), leaving the rest unchanged. -/
theorem get_rect_fold (col : Color) (u v : Nat) (xs : List Nat)
    (ys : List Nat) :
    ∀ (c : Canvas), c.wf →
      (ys.foldl (fun accY y => xs.foldl (fun acc x => acc.set_pixel x y col)
          accY) c).get_pixel u v =
        if u ∈ xs ∧ v ∈ ys ∧ u < c.width ∧ v < c.height then col
        else c.get_pixel u v := by
  induction ys with
  | nil => intro c _; simp
  | cons y ys ih =>
    intro c hwf
    simp only [List.foldl_cons]
    rw [ih (xs.foldl (fun acc x => acc.set_pixel x y col) c)
        (row_fold_wf col y xs c hwf),
      (row_fold_width col y xs c).1, (row_fold_width col y xs c).2.1,
      get_row_fold col y u v xs c hwf]
    by_cases hmem : u ∈ xs ∧ v ∈ ys ∧ u < c.width ∧ v < c.height
    · rw [if_pos hmem, if_pos]
      exact ⟨hmem.1, List.mem_cons_of_mem y hmem.2.1, hmem.2.2⟩
    · rw [if_neg hmem]
      by_cases hhead : u ∈ xs ∧ v = y ∧ u < c.width ∧ v < c.height
      · rw [if_pos hhead, if_pos]
        rcases hhead with ⟨h0, rfl, h1, h2⟩
        exact ⟨h0, List.mem_cons_self v ys, h1, h2⟩
      · rw [if_neg hhead, if_neg]
        rintro ⟨h0, hv, h1, h2⟩
        rcases List.mem_cons.mp hv with rfl | hv
        · exact hhead ⟨h0, rfl, h1, h2⟩
        · exact hmem ⟨h0, hv, h1, h2⟩

/-- Pointwise description of draw_rectangle. The box bounds are exactly the
(possibly wrapped) loop bounds the code computes. -/
theorem get_draw_rectangle (c : Canvas) (hwf : c.wf) (cx cy half_size : Int)
    (col : Color) (u v : Nat) :
    (draw_rectangle c cx cy half_size col).get_pixel u v =
      if (max (cx - half_size) 0).toNat ≤ u ∧
          u < usizeCast (min (cx + half_size) (i32cast c.width - 1) + 1) ∧
          (max (cy - half_size) 0).toNat ≤ v ∧
          v < usizeCast (min (cy + half_size) (i32cast c.height - 1) + 1) ∧
          u < c.width ∧ v < c.height then col
      else c.get_pixel u v := by
  unfold draw_rectangle
  rw [get_rect_fold col u v _ _ c hwf]
  congr 1
  simp only [List.mem_range'_1, eq_iff_iff]
  constructor
  · rintro ⟨⟨h1, h2⟩, ⟨h3, h4⟩, h5⟩
    exact ⟨h1, by omega, h3, by omega, h5⟩
  · rintro ⟨h1, h2, h3, h4, h5, h6⟩
    exact ⟨⟨h1, by omega⟩, ⟨h3, by omega⟩, h5, h6⟩

/-- Pointwise description of draw_rect_preview, analogous to
get_draw_rectangle. -/
theorem get_draw_rect_preview (c : Canvas) (hwf : c.wf) (cx cy hx hy : Int)
    (col : Color) (u v : Nat) :
    (draw_rect_preview c cx cy hx hy col).get_pixel u v =
      if (max (cx - hx) 0).toNat ≤ u ∧
          u < usizeCast (min (cx + hx) (i32cast c.width - 1) + 1) ∧
          (max (cy - hy) 0).toNat ≤ v ∧
          v < usizeCast (min (cy + hy) (i32cast c.height - 1) + 1) ∧
          u < c.width ∧ v < c.height then col
      else c.get_pixel u v := by
  unfold draw_rect_preview
  rw [get_rect_fold col u v _ _ c hwf]
  congr 1
  simp only [List.mem_range'_1, eq_iff_iff]
  constructor
  · rintro ⟨⟨h1, h2⟩, ⟨h3, h4⟩, h5⟩
    exact ⟨h1, by omega, h3, by omega, h5⟩
  · rintro ⟨h1, h2, h3, h4, h5, h6⟩
    exact ⟨⟨h1, by omega⟩, ⟨h3, by omega⟩, h5, h6⟩

/-- Bresenham loop of draw_line in src/main.rs, with explicit fuel. Each
iteration plots the current point when in bounds, stops at the end point,
and otherwise steps x and/or y by the sign increments under the classic
error-term rule. Every non-final iteration moves x or y one step (the two
conditions cannot both fail unless dx = dy = 0, which only happens at the
end point), so `dx + dy + 1` fuel always suffices to reach the end. -/
def lineLoop (x1 y1 dx dy sx sy : Int) (color : Color) :
    Nat → Canvas → Int → Int → Int → Canvas
  | 0, c, _, _, _ => c
  | fuel + 1, c, x, y, err =>
    let c1 := if 0 ≤ x ∧ x < i32cast c.width ∧ 0 ≤ y ∧ y < i32cast c.height
      then c.set_pixel x.toNat y.toNat color
      else c
    if x = x1 ∧ y = y1 then c1
    else
      let e2 := 2 * err
      let err1 := if e2 > -dy then err - dy else err
      let x2 := if e2 > -dy then x + sx else x
      let err2 := if e2 < dx then err1 + dx else err1
      let y2 := if e2 < dx then y + sy else y
      lineLoop x1 y1 dx dy sx sy color fuel c1 x2 y2 err2

/-- draw_line from src/main.rs: integer Bresenham between inclusive
endpoints. -/
def draw_line (c : Canvas) (x0 y0 x1 y1 : Int) (color : Color) : Canvas :=
  let dx := |x1 - x0|
  let dy := |y1 - y0|
  let sx : Int := if x0 < x1 then 1 else -1
  let sy : Int := if y0 < y1 then 1 else -1
  lineLoop x1 y1 dx dy sx sy color (dx.toNat + dy.toNat + 1) c x0 y0 (dx - dy)

/-- Little-endian byte image of a u32 value, as written by
`u32::to_le_bytes` in save_canvas. -/
def u32le (n : Nat) : List Nat :=
  [n % 256, n / 256 % 256, n / 65536 % 256, n / 16777216 % 256]

/-- Pixel section of the file: three bytes R, G, B per pixel, row-major. -/
def encodePixels : List Color → List Nat
  | [] => []
  | p :: ps => p.1 :: p.2.1 :: p.2.2 :: encodePixels ps

/-- Byte image written by save_canvas in src/main.rs: 4-byte little-endian
width (truncated to u32 by the `as u32` cast), 4-byte little-endian height,
then the RGB triples. -/
def save_canvas_bytes (c : Canvas) : List Nat :=
  u32le (c.width % 2 ^ 32) ++ u32le (c.height % 2 ^ 32) ++
    encodePixels c.pixels

/-- The `read_exact` of a 4-byte buffer followed by `u32::from_le_bytes`
in load_canvas: fails when fewer than four bytes remain. -/
def readU32 : List Nat → Option (Nat × List Nat)
  | b0 :: b1 :: b2 :: b3 :: rest =>
    some (b0 + 256 * b1 + 65536 * b2 + 16777216 * b3, rest)
  | _ => none

/-- The pixel-reading loop of load_canvas: one 3-byte `read_exact` per
pixel; any short read aborts the whole load. Trailing bytes are ignored,
as in the Rust code. -/
def readPixels : Nat → List Nat → Option (List Color)
  | 0, _ => some []
  | n + 1, r :: g :: b :: rest =>
    (readPixels n rest).map (fun ps => (r, g, b) :: ps)
  | _ + 1, _ => none

/-- load_canvas from src/main.rs at the byte level: read the width and
height headers, then exactly width*height RGB triples; any short read is a
decode failure and no canvas is produced. -/
def load_canvas_bytes (bs : List Nat) : Option Canvas :=
  match readU32 bs with
  | none => none
  | some (w, rest1) =>
    match readU32 rest1 with
    | none => none
    | some (h, rest2) =>
      match readPixels (w * h) rest2 with
      | none => none
      | some ps => some ⟨w, h, ps⟩

/-- The history state of the editor loop: the `canvas_history` vector of
snapshots plus the `history_index` cursor. -/
structure History where
  snapshots : List Canvas
  cursor : Nat
deriving DecidableEq

/-- Commit protocol from src/main.rs (shape, line, paint, erase and load
handlers all share it): `canvas_history.truncate(history_index + 1)`, push
the snapshot, set the index to the new last position. -/
def History.push (h : History) (c : Canvas) : History :=
  let s := h.snapshots.take (h.cursor + 1) ++ [c]
  ⟨s, s.length - 1⟩

/-- The 'z' undo handler: step the cursor back when possible, else no-op. -/
def History.undo (h : History) : History :=
  if 0 < h.cursor then ⟨h.snapshots, h.cursor - 1⟩ else h

/-- The 'y' redo handler: step the cursor forward when possible, else
no-op. -/
def History.redo (h : History) : History :=
  if h.cursor < h.snapshots.length - 1 then ⟨h.snapshots, h.cursor + 1⟩ else h

/-- The canvas the editor displays after an undo/redo: the snapshot at the
cursor (`canvas = canvas_history[history_index]`). -/
def History.current (h : History) : Canvas :=
  h.snapshots.getD h.cursor (Canvas.new 0 0)

/-- The live editor state the load handler touches: the working canvas and
the history. -/
structure Editor where
  canvas : Canvas
  history : History
deriving DecidableEq

/-- The ']' load handler of src/main.rs, with the file contents supplied as
an optional byte list (none models an IO failure to open or read the
file). On success the loaded canvas replaces the working canvas and is
pushed as a snapshot; on any failure the handler only reports an error and
the editor state is untouched. -/
def loadHandler (st : Editor) (file : Option (List Nat)) : Editor :=
  match file with
  | none => st
  | some bs =>
    match load_canvas_bytes bs with
    | none => st
    | some c => ⟨c, st.history.push c⟩

/-- Abstract pointer events the shape tool session consumes, mirroring the
crossterm MouseEventKind cases handled in src/main.rs (column and row are
the u16 terminal cell coordinates). -/
inductive PEvent where
  | down (column row : Nat)
  | drag (column row : Nat)
  | moved (column row : Nat)
  | up (column row : Nat)
  | esc
deriving DecidableEq

/-- The shape tool session state of src/main.rs: the live canvas, the
history, and the optional start and end points (stored in terminal
coordinates, exactly as `start_pos` / `end_pos` are). -/
structure ShapeSession where
  canvas : Canvas
  history : History
  startPos : Option (Nat × Nat)
  endPos : Option (Nat × Nat)
deriving DecidableEq

/-- The commit block of the shape tool's MouseEventKind::Up handler:
convert the stored terminal coordinates to pixel coordinates (column
halved, u16 values so every `as i32` cast is exact on real inputs), take
the midpoint as the center, and draw a circle of radius
`(dx.max(dy) / 2).max(1)` or a rectangle of half-extents
`(dx / 2).max(1)`, `(dy / 2).max(1)`. Rust i32 division is Int.tdiv. -/
def commitShape (isCircle : Bool) (color : Color) (c : Canvas)
    (sx sy ex ey : Nat) : Canvas :=
  let sx_px := i32cast (sx / 2)
  let sy_px := i32cast sy
  let ex_px := i32cast (ex / 2)
  let ey_px := i32cast ey
  let dx := |ex_px - sx_px|
  let dy := |ey_px - sy_px|
  let cx := Int.tdiv (sx_px + ex_px) 2
  let cy := Int.tdiv (sy_px + ey_px) 2
  if isCircle then
    draw_circle c cx cy (max (Int.tdiv (max dx dy) 2) 1) color
  else
    draw_rect_preview c cx cy (max (Int.tdiv dx 2) 1)
      (max (Int.tdiv dy 2) 1) color

/-- One step of the shape tool session state machine ('shape_loop' in
src/main.rs): pointer-down records the start point, or - when a start is
already set - the end point; drag records a first end point; move updates
the end point while both are set; pointer-up with both points set commits
(draws the shape on the live canvas and pushes a history snapshot);
escape cancels without touching canvas or history. -/
def shapeStep (isCircle : Bool) (color : Color) (s : ShapeSession)
    (e : PEvent) : ShapeSession :=
  match e with
  | .down column row =>
    match s.startPos with
    | none => { s with startPos := some (column, row) }
    | some _ => { s with endPos := some (column, row) }
  | .drag column row =>
    match s.startPos, s.endPos with
    | some _, none => { s with endPos := some (column, row) }
    | _, _ => s
  | .moved column row =>
    match s.startPos, s.endPos with
    | some _, some _ => { s with endPos := some (column, row) }
    | _, _ => s
  | .up _ _ =>
    match s.startPos, s.endPos with
    | some (sx, sy), some (ex, ey) =>
      let c1 := commitShape isCircle color s.canvas sx sy ex ey
      { s with canvas := c1, history := s.history.push c1 }
    | _, _ => s
  | .esc => s

theorem readU32_u32le (n : Nat) (hn : n < 2 ^ 32) (rest : List Nat) :
    readU32 (u32le n ++ rest) = some (n, rest) := by
  have h : n % 256 + 256 * (n / 256 % 256) + 65536 * (n / 65536 % 256) +
      16777216 * (n / 16777216 % 256) = n := by omega
  simp [u32le, readU32, h]

theorem readPixels_encodePixels (ps : List Color) :
    readPixels ps.length (encodePixels ps) = some ps := by
  induction ps with
  | nil => rfl
  | cons p ps ih => simp [encodePixels, readPixels, ih]

theorem readPixels_none_of_short (n : Nat) :
    ∀ bs : List Nat, bs.length < 3 * n → readPixels n bs = none := by
  induction n with
  | zero => intro bs h; omega
  | succ n ih =>
    intro bs h
    match bs with
    | [] => rfl
    | [a] => rfl
    | [a, b] => rfl
    | a :: b :: c :: rest =>
      have hr : rest.length < 3 * n := by
        simp only [List.length_cons] at h
        omega
      simp [readPixels, ih rest hr]

/-- Claim C1: decoding the bytes produced by encoding a canvas (whose
dimensions fit in u32 and whose buffer has the declared length) recovers
the canvas exactly: same width, same height, and every pixel equal. -/
theorem C1_encode_decode_roundtrip (c : Canvas) (hw : c.width < 2 ^ 32)
    (hh : c.height < 2 ^ 32) (hlen : c.pixels.length = c.width * c.height) :
    load_canvas_bytes (save_canvas_bytes c) = some c := by
  unfold save_canvas_bytes load_canvas_bytes
  rw [Nat.mod_eq_of_lt hw, Nat.mod_eq_of_lt hh, List.append_assoc,
    readU32_u32le c.width hw]
  simp only
  rw [readU32_u32le c.height hh]
  simp only
  rw [← hlen, readPixels_encodePixels]

/-- Witness for C1 on a concrete 2-by-1 canvas. -/
theorem C1_encode_decode_roundtrip_witness :
    load_canvas_bytes (save_canvas_bytes ⟨2, 1, [(9, 8, 7), (1, 2, 3)]⟩) =
      some ⟨2, 1, [(9, 8, 7), (1, 2, 3)]⟩ :=
  C1_encode_decode_roundtrip ⟨2, 1, [(9, 8, 7), (1, 2, 3)]⟩ (by decide)
    (by decide) (by decide)

/-- Claim C5: a byte stream whose header declares width w and height h but
carries fewer than w*h*3 further bytes decodes to an error, never to a
partially populated canvas; and on any load failure (decode failure or IO
failure) the editor keeps its previously active canvas and history. -/
theorem C5_truncated_decode_fails (bs rest1 rest2 : List Nat) (w h : Nat)
    (h1 : readU32 bs = some (w, rest1)) (h2 : readU32 rest1 = some (h, rest2))
    (h3 : rest2.length < w * h * 3) :
    load_canvas_bytes bs = none ∧
      ∀ st : Editor, loadHandler st (some bs) = st ∧ loadHandler st none = st := by
  have hload : load_canvas_bytes bs = none := by
    unfold load_canvas_bytes
    rw [h1]
    simp only
    rw [h2]
    simp only
    rw [readPixels_none_of_short (w * h) rest2 (by omega)]
  refine ⟨hload, fun st => ⟨?_, rfl⟩⟩
  unfold loadHandler
  dsimp only
  rw [hload]

/-- Witness for C5: a file declaring 10 x 10 with no pixel bytes at all. -/
theorem C5_truncated_decode_fails_witness :
    load_canvas_bytes [10, 0, 0, 0, 10, 0, 0, 0] = none ∧
      loadHandler ⟨Canvas.new 2 2, ⟨[Canvas.new 2 2], 0⟩⟩
          (some [10, 0, 0, 0, 10, 0, 0, 0]) =
        ⟨Canvas.new 2 2, ⟨[Canvas.new 2 2], 0⟩⟩ := by
  have h := C5_truncated_decode_fails [10, 0, 0, 0, 10, 0, 0, 0] [10, 0, 0, 0]
    [] 10 10 (by decide) (by decide) (by decide)
  exact ⟨h.1, (h.2 ⟨Canvas.new 2 2, ⟨[Canvas.new 2 2], 0⟩⟩).1⟩

/-- Counterexample to claim C6: a file whose header declares width 0 and
height 0 decodes successfully to a zero-area canvas; it is not reported as
a load error, contrary to the claim. -/
theorem C6_zero_area_counterexample :
    load_canvas_bytes [0, 0, 0, 0, 0, 0, 0, 0] = some ⟨0, 0, []⟩ ∧
      load_canvas_bytes [0, 0, 0, 0, 0, 0, 0, 0] ≠ none := by decide

/-- Claim C6 as amended: loading a buffer that declares a zero-area canvas
(width 0 or height 0) does not panic, but it is not a load error either:
decode succeeds and returns the zero-area canvas with an empty pixel
buffer. -/
theorem C6_zero_area_load_succeeds (bs rest1 rest2 : List Nat) (w h : Nat)
    (h1 : readU32 bs = some (w, rest1)) (h2 : readU32 rest1 = some (h, rest2))
    (hz : w * h = 0) :
    load_canvas_bytes bs = some ⟨w, h, []⟩ := by
  unfold load_canvas_bytes
  rw [h1]
  simp only
  rw [h2]
  simp only
  rw [hz]
  rfl

/-- Witness for the amended C6: a header declaring width 0 and height 5. -/
theorem C6_zero_area_load_succeeds_witness :
    load_canvas_bytes [0, 0, 0, 0, 5, 0, 0, 0] = some ⟨0, 5, []⟩ :=
  C6_zero_area_load_succeeds [0, 0, 0, 0, 5, 0, 0, 0] [5, 0, 0, 0] [] 0 5
    (by decide) (by decide) (by decide)

/-- Claim C2: push truncates the snapshots to cursor + 1 entries, appends
the new snapshot and moves the cursor to the new last index; and in the
S0-S1-S2 scenario, undo yields S1, a second undo yields S0, a third undo
is a no-op with the cursor still 0, redo from S0 yields S1, and pushing S3
after one undo discards S2 so a subsequent redo is a no-op. -/
theorem C2_history_semantics (S0 S1 S2 S3 : Canvas) :
    (∀ (h : History) (c : Canvas),
      (h.push c).snapshots = h.snapshots.take (h.cursor + 1) ++ [c] ∧
        (h.push c).cursor = (h.push c).snapshots.length - 1) ∧
    (((⟨[S0], 0⟩ : History).push S1).push S2).undo.current = S1 ∧
    (((⟨[S0], 0⟩ : History).push S1).push S2).undo.undo.current = S0 ∧
    (((⟨[S0], 0⟩ : History).push S1).push S2).undo.undo.undo =
      (((⟨[S0], 0⟩ : History).push S1).push S2).undo.undo ∧
    (((⟨[S0], 0⟩ : History).push S1).push S2).undo.undo.cursor = 0 ∧
    (((⟨[S0], 0⟩ : History).push S1).push S2).undo.undo.redo.current = S1 ∧
    ((((⟨[S0], 0⟩ : History).push S1).push S2).undo.push S3).snapshots =
      [S0, S1, S3] ∧
    ((((⟨[S0], 0⟩ : History).push S1).push S2).undo.push S3).redo =
      (((⟨[S0], 0⟩ : History).push S1).push S2).undo.push S3 :=
  ⟨fun _ _ => ⟨rfl, rfl⟩, rfl, rfl, rfl, rfl, rfl, rfl, rfl⟩

/-- Divergence witness for claim C3: with a 20-by-20 canvas and the box of
half-size 3 around center (-10, 10) - a box lying entirely off-canvas, for
which the claim demands a zero-area no-op - draw_rectangle paints pixel
(0, 10): the Rust cast of the negative clamped upper bound to usize wraps
to a huge loop bound instead of producing an empty range. -/
theorem C3_rectangle_offcanvas_divergence :
    (draw_rectangle (Canvas.new 20 20) (-10) 10 3 (0, 0, 0)).get_pixel 0 10 =
        (0, 0, 0) ∧
      (Canvas.new 20 20).get_pixel 0 10 = (255, 255, 255) := by
  constructor
  · rw [get_draw_rectangle (Canvas.new 20 20)
      (Canvas.new_wf 20 20) (-10) 10 3 (0, 0, 0) 0 10]
    rw [if_pos]
    refine ⟨by decide, by decide, by decide, by decide, by decide, by decide⟩
  · decide

/-- Counterexample to claim C7 as stated: the claim's "a pixel is that
color iff it is in the disk and in bounds" fails whenever a pixel outside
the disk already had the color. Painting a radius-0 white disk on a white
2-by-2 canvas leaves pixel (1, 1) white although (1, 1) is not in the
disk. -/
theorem C7_circle_iff_counterexample :
    (draw_circle (Canvas.new 2 2) 0 0 0 white).get_pixel 1 1 = white ∧
      ¬ (((1 : Int) - 0) * ((1 : Int) - 0) +
          ((1 : Int) - 0) * ((1 : Int) - 0) ≤ 0 * 0) := by
  constructor
  · decide
  · decide

/-- Claim C7 as amended: after draw_circle, every in-bounds pixel whose
squared distance from the center is at most the squared radius holds the
given color, and every other pixel keeps its previous value (so a pixel
outside the disk is the color only if it already was). -/
theorem C7_circle_fills_disk (c : Canvas) (cx cy radius : Int)
    (color : Color) (hwf : c.wf) (hr : 0 ≤ radius) (hw : c.width < 2 ^ 31)
    (hh : c.height < 2 ^ 31) :
    ∀ u v : Nat, u < c.width → v < c.height →
      (draw_circle c cx cy radius color).get_pixel u v =
        if ((u : Int) - cx) * ((u : Int) - cx) +
            ((v : Int) - cy) * ((v : Int) - cy) ≤ radius * radius then color
        else c.get_pixel u v :=
  fun u v hu hv => get_draw_circle c hwf cx cy radius color hr hw hh u v hu hv

/-- Witness for the amended C7: a radius-1 black disk at the center of a
white 3-by-3 canvas paints (1, 0) and leaves the corner (0, 0) white. -/
theorem C7_circle_fills_disk_witness :
    (draw_circle (Canvas.new 3 3) 1 1 1 (0, 0, 0)).get_pixel 1 0 =
        (0, 0, 0) ∧
      (draw_circle (Canvas.new 3 3) 1 1 1 (0, 0, 0)).get_pixel 0 0 =
        (255, 255, 255) := by
  have h := C7_circle_fills_disk (Canvas.new 3 3) 1 1 1 (0, 0, 0)
    (Canvas.new_wf 3 3) (by decide) (by decide) (by decide)
  constructor
  · rw [h 1 0 (by decide) (by decide), if_pos (by decide)]
  · rw [h 0 0 (by decide) (by decide), if_neg (by decide)]
    decide

/-- Plotting step of the Bresenham loop when the current point is already
the end point: plot it (clipped) and stop. -/
theorem lineLoop_at_end (x1 y1 dx dy sx sy : Int) (color : Color)
    (fuel : Nat) (c : Canvas) (err : Int) :
    lineLoop x1 y1 dx dy sx sy color (fuel + 1) c x1 y1 err =
      if 0 ≤ x1 ∧ x1 < i32cast c.width ∧ 0 ≤ y1 ∧ y1 < i32cast c.height
        then c.set_pixel x1.toNat y1.toNat color
        else c := by
  unfold lineLoop
  dsimp only
  rw [if_pos ⟨rfl, rfl⟩]

/-- Claim C10: a zero-length line plots exactly its (single, inclusive)
endpoint when in bounds, and in particular draw_line from (5,5) to (5,5)
sets exactly pixel (5, 5) and changes no other pixel. -/
theorem C10_degenerate_line (c : Canvas) (color : Color) (hwf : c.wf)
    (hw : c.width < 2 ^ 31) (hh : c.height < 2 ^ 31) (h5w : 5 < c.width)
    (h5h : 5 < c.height) :
    (∀ x y : Int, draw_line c x y x y color =
        if 0 ≤ x ∧ x < (c.width : Int) ∧ 0 ≤ y ∧ y < (c.height : Int) then
          c.set_pixel x.toNat y.toNat color
        else c) ∧
    (draw_line c 5 5 5 5 color).get_pixel 5 5 = color ∧
    (∀ u v : Nat, ¬(u = 5 ∧ v = 5) →
      (draw_line c 5 5 5 5 color).get_pixel u v = c.get_pixel u v) := by
  have hgen : ∀ x y : Int, draw_line c x y x y color =
      if 0 ≤ x ∧ x < (c.width : Int) ∧ 0 ≤ y ∧ y < (c.height : Int) then
        c.set_pixel x.toNat y.toNat color
      else c := by
    intro x y
    unfold draw_line
    dsimp only
    rw [lineLoop_at_end, i32cast_eq_of_lt hw, i32cast_eq_of_lt hh]
  have h55 : draw_line c 5 5 5 5 color = c.set_pixel 5 5 color := by
    rw [hgen 5 5, if_pos]
    · rfl
    · refine ⟨by norm_num, by exact_mod_cast h5w, by norm_num,
        by exact_mod_cast h5h⟩
  refine ⟨hgen, ?_, ?_⟩
  · rw [h55, get_pixel_set_pixel c hwf 5 5 5 5 color,
      if_pos ⟨rfl, rfl, by omega, by omega⟩]
  · intro u v huv
    rw [h55, get_pixel_set_pixel c hwf 5 5 u v color, if_neg]
    rintro ⟨h1, h2, _, _⟩
    exact huv ⟨h1, h2⟩

/-- Witness for C10 on a concrete 8-by-8 canvas. -/
theorem C10_degenerate_line_witness :
    (draw_line (Canvas.new 8 8) 5 5 5 5 (1, 2, 3)).get_pixel 5 5 =
      (1, 2, 3) :=
  (C10_degenerate_line (Canvas.new 8 8) (1, 2, 3) (Canvas.new_wf 8 8)
    (by decide) (by decide) (by decide) (by decide)).2.1

/-- Claim C9: draw_brush_stroke fills exactly the t-by-t square whose
top-left corner is (x - t/2, y - t/2) with floor division, clipped
per-pixel to the canvas, leaving every other pixel unchanged; and a stamp
of thickness 1 colors exactly the single pixel (x, y). -/
theorem C9_brush_stamp (c : Canvas) (x y t : Nat) (color : Color)
    (hwf : c.wf) (ht : 1 ≤ t) (hxt : x + t < 2 ^ 31) (hyt : y + t < 2 ^ 31)
    (hw : c.width < 2 ^ 31) (hh : c.height < 2 ^ 31) :
    (∀ u v : Nat, u < c.width → v < c.height →
      (draw_brush_stroke c x y t color).get_pixel u v =
        if (x : Int) - ((t / 2 : Nat) : Int) ≤ (u : Int) ∧
            (u : Int) < (x : Int) - ((t / 2 : Nat) : Int) + (t : Int) ∧
            (y : Int) - ((t / 2 : Nat) : Int) ≤ (v : Int) ∧
            (v : Int) < (y : Int) - ((t / 2 : Nat) : Int) + (t : Int)
          then color else c.get_pixel u v) ∧
    draw_brush_stroke c x y 1 color = c.set_pixel x y color := by
  have htd : Int.tdiv (t : Int) 2 = ((t / 2 : Nat) : Int) :=
    (Int.ofNat_tdiv t 2).symm
  constructor
  · intro u v hu hv
    unfold draw_brush_stroke
    dsimp only
    rw [i32cast_eq_of_lt (show t < 2 ^ 31 by omega),
      i32cast_eq_of_lt (show x < 2 ^ 31 by omega),
      i32cast_eq_of_lt (show y < 2 ^ 31 by omega),
      get_brush_fold (x : Int) (y : Int) (t : Int) color u v _ _ c hwf hw hh,
      htd]
    congr 1
    simp only [eq_iff_iff]
    constructor
    · rintro ⟨⟨dy, hdy, dx, hdx, he1, he2⟩, _, _⟩
      rw [mem_irange] at hdy hdx
      omega
    · intro hbox
      refine ⟨⟨(v : Int) - (y : Int) + ((t / 2 : Nat) : Int), ?_,
        (u : Int) - (x : Int) + ((t / 2 : Nat) : Int), ?_, by omega,
        by omega⟩, hu, hv⟩
      · rw [mem_irange]; omega
      · rw [mem_irange]; omega
  · unfold draw_brush_stroke
    dsimp only
    rw [show i32cast 1 = 1 from by decide,
      i32cast_eq_of_lt (show x < 2 ^ 31 by omega),
      i32cast_eq_of_lt (show y < 2 ^ 31 by omega),
      show irange 0 1 = [0] from by decide]
    rw [List.foldl_cons, List.foldl_nil, List.foldl_cons, List.foldl_nil]
    unfold brushStep
    dsimp only
    rw [show Int.tdiv 1 2 = 0 from by decide]
    simp only [sub_zero, add_zero, Int.toNat_natCast]
    rw [i32cast_eq_of_lt hw, i32cast_eq_of_lt hh]
    by_cases hb : x < c.width ∧ y < c.height
    · rw [if_pos (show (0 : Int) ≤ (x : Int) ∧ (x : Int) < (c.width : Int) ∧
        (0 : Int) ≤ (y : Int) ∧ (y : Int) < (c.height : Int) by omega)]
    · rw [if_neg (show ¬ ((0 : Int) ≤ (x : Int) ∧ (x : Int) < (c.width : Int) ∧
        (0 : Int) ≤ (y : Int) ∧ (y : Int) < (c.height : Int)) by omega)]
      unfold Canvas.set_pixel
      rw [if_neg hb]

/-- Witness for C9: a thickness-2 stamp at (1, 1) paints (0, 0), and a
thickness-1 stamp at (2, 3) is a single set_pixel. -/
theorem C9_brush_stamp_witness :
    (draw_brush_stroke (Canvas.new 4 4) 1 1 2 (7, 7, 7)).get_pixel 0 0 =
        (7, 7, 7) ∧
      draw_brush_stroke (Canvas.new 4 4) 2 3 1 (7, 7, 7) =
        (Canvas.new 4 4).set_pixel 2 3 (7, 7, 7) := by
  constructor
  · have h := C9_brush_stamp (Canvas.new 4 4) 1 1 2 (7, 7, 7)
      (Canvas.new_wf 4 4) (by decide) (by decide) (by decide) (by decide)
      (by decide)
    rw [h.1 0 0 (by decide) (by decide), if_pos (by decide)]
  · exact (C9_brush_stamp (Canvas.new 4 4) 2 3 1 (7, 7, 7)
      (Canvas.new_wf 4 4) (by decide) (by decide) (by decide) (by decide)
      (by decide)).2

/-- Counterexample to claim C4 as stated: a pointer-down received while a
start point is already set records the end point but does not commit -
the history still has its single snapshot (not two) and the canvas is
untouched. The commit actually happens on the subsequent pointer-up. -/
theorem C4_down_with_start_does_not_commit :
    ¬ ((shapeStep true (0, 0, 0)
          ⟨Canvas.new 4 4, ⟨[Canvas.new 4 4], 0⟩, some (4, 4), none⟩
          (PEvent.down 10 10)).history.snapshots.length = 1 + 1) ∧
      (shapeStep true (0, 0, 0)
          ⟨Canvas.new 4 4, ⟨[Canvas.new 4 4], 0⟩, some (4, 4), none⟩
          (PEvent.down 10 10)).canvas = Canvas.new 4 4 ∧
      (shapeStep true (0, 0, 0)
          ⟨Canvas.new 4 4, ⟨[Canvas.new 4 4], 0⟩, some (4, 4), none⟩
          (PEvent.down 10 10)).endPos = some (10, 10) := by
  refine ⟨by decide, rfl, rfl⟩

/-- Claim C4 as amended: a pointer-down received while a start point is
already set records the end point only, leaving canvas and history
untouched; the commit happens on the subsequent pointer-up with both
points set, drawing the shape whose center is the midpoint of the start
and end pixel coordinates, with circle radius half the max of the axis
deltas and rectangle half-extents half of each axis delta, each floored
to at least 1, and pushing the result as a new history snapshot. -/
theorem C4_shape_commit_on_pointer_up (isCircle : Bool) (color : Color)
    (c : Canvas) (hist : History) (sx sy ex ey column row a b : Nat)
    (hsx : sx < 65536) (hsy : sy < 65536) (hex : ex < 65536)
    (hey : ey < 65536) :
    (shapeStep isCircle color ⟨c, hist, some (sx, sy), none⟩
        (PEvent.down column row) =
      ⟨c, hist, some (sx, sy), some (column, row)⟩) ∧
    (shapeStep isCircle color ⟨c, hist, some (sx, sy), some (ex, ey)⟩
        (PEvent.up a b) =
      let sp : Int := ((sx / 2 : Nat) : Int)
      let ep : Int := ((ex / 2 : Nat) : Int)
      let dx : Int := |ep - sp|
      let dy : Int := |(ey : Int) - (sy : Int)|
      let c1 := if isCircle then
          draw_circle c (Int.tdiv (sp + ep) 2)
            (Int.tdiv ((sy : Int) + (ey : Int)) 2)
            (max (Int.tdiv (max dx dy) 2) 1) color
        else
          draw_rect_preview c (Int.tdiv (sp + ep) 2)
            (Int.tdiv ((sy : Int) + (ey : Int)) 2)
            (max (Int.tdiv dx 2) 1) (max (Int.tdiv dy 2) 1) color
      ⟨c1, hist.push c1, some (sx, sy), some (ex, ey)⟩) := by
  constructor
  · rfl
  · dsimp only
    unfold shapeStep
    dsimp only
    unfold commitShape
    dsimp only
    rw [i32cast_eq_of_lt (show sx / 2 < 2 ^ 31 by omega),
      i32cast_eq_of_lt (show sy < 2 ^ 31 by omega),
      i32cast_eq_of_lt (show ex / 2 < 2 ^ 31 by omega),
      i32cast_eq_of_lt (show ey < 2 ^ 31 by omega)]

/-- Witness for the amended C4: committing a circle from start (2, 1) to
end (6, 3) in terminal coordinates draws a radius-1 circle at pixel
center (2, 2) and pushes it on the history. -/
theorem C4_shape_commit_on_pointer_up_witness :
    shapeStep true (0, 0, 0) ⟨Canvas.new 4 4, ⟨[Canvas.new 4 4], 0⟩,
        some (2, 1), some (6, 3)⟩ (PEvent.up 0 0) =
      ⟨draw_circle (Canvas.new 4 4) 2 2 1 (0, 0, 0),
        History.push ⟨[Canvas.new 4 4], 0⟩
          (draw_circle (Canvas.new 4 4) 2 2 1 (0, 0, 0)),
        some (2, 1), some (6, 3)⟩ := by
  have h := (C4_shape_commit_on_pointer_up true (0, 0, 0) (Canvas.new 4 4)
    ⟨[Canvas.new 4 4], 0⟩ 2 1 6 3 9 9 0 0 (by decide) (by decide) (by decide)
    (by decide)).2
  simpa using h

/-- Claim C8: set_pixel at any coordinate with `x >= width` or `y >= height`
is a silent no-op: the canvas (hence every existing pixel) is unchanged and
no error is signalled. -/
theorem C8_set_pixel_out_of_bounds_noop (c : Canvas) (x y : Nat) (col : Color)
    (h : c.width ≤ x ∨ c.height ≤ y) :
    c.set_pixel x y col = c := by
  unfold Canvas.set_pixel
  rw [if_neg]
  rintro ⟨h1, h2⟩
  rcases h with h | h <;> omega

/-- Witness for C8 at a concrete out-of-bounds coordinate. -/
theorem C8_set_pixel_out_of_bounds_noop_witness :
    (Canvas.new 4 4).width ≤ 7 ∧
      (Canvas.new 4 4).set_pixel 7 2 (0, 0, 0) = Canvas.new 4 4 :=
  ⟨by decide, C8_set_pixel_out_of_bounds_noop (Canvas.new 4 4) 7 2 (0, 0, 0)
    (Or.inl (by decide))⟩

end Raint
